import Mathlib

/-
  Verification of the BitGo proof-of-solvency core against its design
  specification.

  Shallow embedding conventions:
  * Go `[]byte` values (hashes, user ids) are lists of byte values, `List Nat`.
  * Go `*big.Int` balance entries are unbounded `Int` (math/big is arbitrary
    precision); `big.Int.Bytes()` is `natToBytes` (minimal big-endian form).
  * The MiMC hash over BN254 lives in the external gnark-crypto library, not in
    this repository; it is embedded as an uninterpreted parameter
    `M : MimcFn` mapping a written byte stream to a digest.  A fresh
    hasher that Writes chunks c1, ..., cn and then Sums is `M (c1 ++ ... ++ cn)`.
  * Go panics are represented by `Except GoPanic _` / dedicated outcome types,
    kept distinct from Go functions that *return* an `error` value.
  * Go strings handled character-by-character (user ids) are lists of
    character codes (`List Nat`), e.g. 45 is the hyphen.
-/

set_option maxRecDepth 10000

namespace PoS

/-! ## Byte-level primitives -/

/-- Go `[]byte`, the circuit package's `Hash` alias. -/
abbrev Hash := List Nat

/-- `ModBytes = len(ecc.BN254.ScalarField().Bytes())`: the BN254 scalar
modulus occupies 32 bytes. -/
def ModBytes : Nat := 32

/-- `big.Int.Bytes()`: minimal big-endian byte representation (empty for 0). -/
def natToBytes (n : Nat) : List Nat :=
  if h : n = 0 then [] else natToBytes (n / 256) ++ [n % 256]
decreasing_by exact Nat.div_lt_self (Nat.pos_of_ne_zero h) (by norm_num)

/-- `big.Int.SetBytes`: interpret a byte list big-endian. -/
def bytesToNat (bs : List Nat) : Nat :=
  bs.foldl (fun acc b => acc * 256 + b) 0

/-- The asset symbol table from `circuit/constants.go` (a build-time constant). -/
def AssetSymbols : List String :=
  ["ALGO", "ARBETH", "AVAXC", "AVAXP", "BTC", "BCH", "ADA", "CSPR", "TIA",
   "COREUM", "ATOM", "DASH", "DOGE", "EOS", "ETH", "ETC", "HBAR", "LTC", "NEAR",
   "OSMO", "DOT", "POLYGON", "SEI", "SOL", "STX", "XLM", "SUI", "TRX", "XRP",
   "ZEC", "ZETA", "BLD", "BSC", "TON", "COREDAO", "BERA", "TAO", "APT", "XDC", "WEMIX"]

/-- `GetNumberOfAssets()` returns `len(AssetSymbols)`. -/
def GetNumberOfAssets : Nat := AssetSymbols.length

/-! ## Panic and error kinds

`GoPanic` enumerates the distinct host-side panic sites reached by the
embedded functions (a Go panic aborts the process; it is not a returned
`error`).  `VerifyErr` enumerates the `error` values *returned* by the
verifier primitives. -/

inductive GoPanic where
  /-- `panic("negative value cannot be used in the circuit")` in `padToModBytes`. -/
  | negativeValue
  /-- the runtime `makeslice: len out of range` panic in `padToModBytes` when
  `num.Bytes()` is longer than `ModBytes`. -/
  | overflowingValue
  /-- `panic(INVALID_BALANCE_LENGTH_MESSAGE)`. -/
  | balanceLengthMismatch
  /-- `panic("negative asset balance found")` in `SumGoAccountBalances`. -/
  | negativeAssetBalance
  /-- `panic(MERKLE_TREE_LEAF_LIMIT_EXCEEDED_MESSAGE)`. -/
  | tooManyLeaves
  /-- a Go runtime index-out-of-range panic on a slice access. -/
  | indexOutOfRange
  /-- `panic("position is out of bounds - ...")` in `ComputeMerklePath`. -/
  | positionOutOfRange
  /-- `panic("merkle nodes provided are not of correct structure - ...")`. -/
  | malformedGrid
  /-- `panic("failed to convert userId to big.Int from base36: ...")`. -/
  | userIdParseFailure
  /-- `panic("number of accounts exceeds the maximum number of leaves in the
  Merkle tree")` in `Circuit.Define`. -/
  | tooManyAccounts
  /-- `panic("AssetSum is nil, cannot convert to GoAccount")`. -/
  | nilAssetSum
  deriving DecidableEq, Repr

inductive VerifyErr where
  /-- "merkle path is not of depth of tree: ..." -/
  | pathLengthMismatch
  /-- "hashPosition out of bounds" -/
  | positionOutOfRange
  /-- "merkle proof path verification failed" -/
  | rootMismatch
  /-- "top layer proof's AssetSum is nil" -/
  | assetSumNil
  /-- "top layer proof's MerkleRootWithAssetSumHash does not match the hash
  computed from MerkleRoot and AssetSum" -/
  | assetSumHashMismatch
  deriving DecidableEq, Repr

/-! ## Balance algebra (`circuit/utils.go`) -/

/-- `GoBalance` is `[]*big.Int`. -/
abbrev GoBalance := List Int

/-- `GoAccount` from `circuit/utils.go`. -/
structure GoAccount where
  UserId : Hash
  Balance : GoBalance
  deriving DecidableEq, Repr

/-- `padToModBytes` returns the bytes of the input value padded to `ModBytes`
length.  A negative value hits the explicit panic; a value longer than
`ModBytes` bytes makes `make([]byte, ModBytes-len(value))` panic at runtime
(negative slice length). -/
def padToModBytes (num : Int) : Except GoPanic Hash :=
  if num < 0 then .error .negativeValue
  else
    let value := natToBytes num.toNat
    if ModBytes < value.length then .error .overflowingValue
    else .ok (List.replicate (ModBytes - value.length) 0 ++ value)

/-- The canonical 32-byte zero encoding, `padToModBytes(big.NewInt(0))`. -/
def zeroEncoding : Hash := List.replicate ModBytes 0

/-- `goConvertBalanceToBytes`: concatenation of the padded per-asset values;
panics when the balance length differs from the asset count. -/
def goConvertBalanceToBytes (balance : GoBalance) : Except GoPanic (List Nat) := do
  if balance.length ≠ GetNumberOfAssets then throw .balanceLengthMismatch
  let chunks ← balance.mapM padToModBytes
  pure chunks.flatten

/-- `MimcFn` abstracts the gnark-crypto MiMC hasher: digest of a written byte
stream.  The hasher state is reset before each embedded use. -/
abbrev MimcFn := List Nat → Hash

/-- `GoComputeMiMCHashForAccount`: hash the balance bytes, then hash
`UserId ++ balanceHash` with a reset hasher. -/
def GoComputeMiMCHashForAccount (M : MimcFn) (account : GoAccount) :
    Except GoPanic Hash := do
  let balanceBytes ← goConvertBalanceToBytes account.Balance
  let balanceHash := M balanceBytes
  pure (M (account.UserId ++ balanceHash))

/-- `ConstructGoBalance()` with no initial balances: the all-zero balance of
length `GetNumberOfAssets`. -/
def ConstructGoBalance : GoBalance := List.replicate GetNumberOfAssets 0

/-- The inner loop of `SumGoAccountBalances` for one account: per index,
panic on a negative entry, otherwise add positionally into the accumulator.
The caller has already checked the lengths agree. -/
def sumOneBalance : List Int → List Int → Except GoPanic (List Int)
  | acc, [] => .ok acc
  | [], _ :: _ => .error .indexOutOfRange  -- `assetSum[i]` out of range (unreachable after the length check)
  | a :: as, b :: bs =>
    if b < 0 then .error .negativeAssetBalance
    else do
      let rest ← sumOneBalance as bs
      pure ((a + b) :: rest)

/-- The body of `SumGoAccountBalances`' outer loop for one account: panic on
a balance of the wrong length, then run the inner accumulation loop. -/
def sumStep (assetSum : GoBalance) (account : GoAccount) : Except GoPanic GoBalance :=
  if account.Balance.length ≠ GetNumberOfAssets then .error .balanceLengthMismatch
  else sumOneBalance assetSum account.Balance

/-- `SumGoAccountBalances` sums the balances of a list of `GoAccount`s and
panics on a length mismatch or a negative entry. -/
def SumGoAccountBalances (accounts : List GoAccount) : Except GoPanic GoBalance :=
  accounts.foldlM sumStep ConstructGoBalance

/-! ## Merkle commitment (`circuit/utils.go`, current revision) -/

/-- `powOfTwo` / `PowOfTwo`. -/
def powOfTwo (n : Nat) : Nat := 1 <<< n

/-- `TREE_DEPTH = 10` from `circuit/constants.go`. -/
def TREE_DEPTH : Nat := 10

/-- `ACCOUNTS_PER_BATCH = 1 << TREE_DEPTH`. -/
def ACCOUNTS_PER_BATCH : Nat := powOfTwo TREE_DEPTH

/-- `GoComputeHashOfTwoNodes`: reset the hasher, write both nodes, digest. -/
def GoComputeHashOfTwoNodes (M : MimcFn) (node1 node2 : Hash) : Hash :=
  M (node1 ++ node2)

/-- The bottom-layer fill loop shared by the tree builders: slot `i` holds
`hashes[i]` when `i < len(hashes)` and `padToModBytes(0)` (the canonical zero
encoding) otherwise, for `i = 0 .. n-1`. -/
def padTo (hashes : List Hash) (n : Nat) : List Hash :=
  (List.range n).map fun i => if i < hashes.length then hashes.getD i [] else zeroEncoding

/-- One parent layer: entry `j` (for `j = 0 .. width-1`) is the two-node hash
of children `2j` and `2j+1` of the layer below. -/
def parentLevel (M : MimcFn) (children : List Hash) (width : Nat) : List Hash :=
  (List.range width).map fun j =>
    GoComputeHashOfTwoNodes M (children.getD (2 * j) []) (children.getD (2 * j + 1) [])

/-- The level stack of `goComputeMerkleTreeNodesFromHashes`: given the layer
at depth `i` (`cur`), produce `[nodes[0], ..., nodes[i]]` where each
`nodes[k]` for `k < i` is the parent layer (of width `2^k`) of `nodes[k+1]`.
This mirrors the descending loop `for i := treeDepth - 1; i >= 0; i--`. -/
def buildStack (M : MimcFn) (cur : List Hash) : Nat → List (List Hash)
  | 0 => [cur]
  | i + 1 => buildStack M (parentLevel M cur (powOfTwo i)) i ++ [cur]

/-- `goComputeMerkleTreeNodesFromHashes` (current revision, which allocates
`nodes[treeDepth]` for the bottom layer): leaf-limit check, pad the bottom
layer to `2^treeDepth`, then build every parent layer. -/
def goComputeMerkleTreeNodesFromHashes (M : MimcFn) (hashes : List Hash)
    (treeDepth : Nat) : Except GoPanic (List (List Hash)) :=
  if powOfTwo treeDepth < hashes.length then .error .tooManyLeaves
  else .ok (buildStack M (padTo hashes (powOfTwo treeDepth)) treeDepth)

/-- One level of `goComputeMerkleRootFromHashes`, which reuses a single flat
array: for `j = 0 .. count-1` in order, `nodes[j] = H(nodes[2j], nodes[2j+1])`.
The writes are sequential, exactly as in the Go loop. -/
def rootPassAux (M : MimcFn) (arr : List Hash) (j count : Nat) : List Hash :=
  if h : j < count then
    rootPassAux M
      (arr.set j (GoComputeHashOfTwoNodes M (arr.getD (2 * j) []) (arr.getD (2 * j + 1) [])))
      (j + 1) count
  else arr
termination_by count - j
decreasing_by simp_wf; omega

/-- The outer loop of `goComputeMerkleRootFromHashes`: passes of widths
`2^(treeDepth-1), ..., 2^0` over the flat array. -/
def rootLoop (M : MimcFn) (arr : List Hash) : Nat → List Hash
  | 0 => arr
  | i + 1 => rootLoop M (rootPassAux M arr 0 (powOfTwo i)) i

/-- `goComputeMerkleRootFromHashes`: leaf-limit check, pad to `2^treeDepth`
in a flat array, overwrite it level by level, return slot 0. -/
def goComputeMerkleRootFromHashes (M : MimcFn) (hashes : List Hash)
    (treeDepth : Nat) : Except GoPanic Hash :=
  if powOfTwo treeDepth < hashes.length then .error .tooManyLeaves
  else .ok ((rootLoop M (padTo hashes (powOfTwo treeDepth)) treeDepth).getD 0 [])

/-- `GoComputeMerkleRootFromHashes` fixes `treeDepth = TREE_DEPTH`. -/
def GoComputeMerkleRootFromHashes (M : MimcFn) (hashes : List Hash) :
    Except GoPanic Hash :=
  goComputeMerkleRootFromHashes M hashes TREE_DEPTH

/-- The loop of `ComputeMerklePath`, from level `i` down to level 1: check the
layer width, take the sibling (`currPos+1` when `currPos` is even, `currPos-1`
when odd), halve the position. -/
def computePathAux (nodes : List (List Hash)) (currPos : Nat) : Nat → Except GoPanic (List Hash)
  | 0 => .ok []
  | i + 1 => do
    let lvl := nodes.getD (i + 1) []
    if lvl.length ≠ powOfTwo (i + 1) then throw .malformedGrid
    let sib := if currPos % 2 = 0 then lvl.getD (currPos + 1) [] else lvl.getD (currPos - 1) []
    let rest ← computePathAux nodes (currPos / 2) i
    pure (sib :: rest)

/-- `ComputeMerklePath(position, nodes)` computes the Merkle path of the hash
at a bottom-level position; panics when the position is out of bounds or a
layer has the wrong width. -/
def ComputeMerklePath (position : Int) (nodes : List (List Hash)) :
    Except GoPanic (List Hash) :=
  let treeDepth := nodes.length - 1
  if position < 0 ∨ (powOfTwo treeDepth : Int) ≤ position then .error .positionOutOfRange
  else computePathAux nodes position.toNat treeDepth

/-- The reconstruction fold of `verifyMerklePath`: per step the code swaps
`curr` and `sibling` when the position is odd, hashes the pair, and halves the
position. -/
def verifyFoldAux (M : MimcFn) (curr : Hash) (currPos : Nat) : List Hash → Hash
  | [] => curr
  | sibling :: rest =>
    verifyFoldAux M
      (if currPos % 2 = 1 then GoComputeHashOfTwoNodes M sibling curr
       else GoComputeHashOfTwoNodes M curr sibling)
      (currPos / 2) rest

/-- Modelled from the spec's words (§3 "Merkle path"): at each step, if
`(current_pos & 1) == 0` the parent is `H(curr ‖ sibling)`, otherwise
`H(sibling ‖ curr)`; then `current_pos >>= 1`.  Stated separately from
`verifyFoldAux` so the code's fold can be compared against it. -/
def specReconstruct (M : MimcFn) (curr : Hash) (pos : Nat) : List Hash → Hash
  | [] => curr
  | sibling :: rest =>
    specReconstruct M
      (if pos % 2 = 0 then GoComputeHashOfTwoNodes M curr sibling
       else GoComputeHashOfTwoNodes M sibling curr)
      (pos / 2) rest

/-- `verifyMerklePath(hash, hashPosition, path, root)` from `core/verifier.go`
(current revision): length and position guards, reconstruction fold, root
comparison.  It returns an `error` value (not a panic), hence `VerifyErr`. -/
def verifyMerklePath (M : MimcFn) (hash : Hash) (hashPosition : Int)
    (path : List Hash) (root : Hash) : Except VerifyErr Unit :=
  if path.length ≠ TREE_DEPTH then .error .pathLengthMismatch
  else if hashPosition < 0 ∨ (powOfTwo TREE_DEPTH : Int) ≤ hashPosition then
    .error .positionOutOfRange
  else if verifyFoldAux M hash hashPosition.toNat path = root then .ok ()
  else .error .rootMismatch

/-! ## The superseded grid builder (`src/circuit/utils.go`, lines 167-212)

That revision spells the function `goComputeMerkleTreenodesFromHashes`
(lower-case `n`) and allocates `nodes[0]` where the bottom layer
`nodes[treeDepth]` is then written.  Its slice accesses are embedded with
explicit bounds checks so the runtime index-out-of-range panic is captured.
An unallocated Go slice (`nil`) reads as the empty list. -/

/-- `grid[lvl][idx] = v` with Go slice bounds semantics. -/
def writeGridEntry (grid : List (List Hash)) (lvl idx : Nat) (v : Hash) :
    Except GoPanic (List (List Hash)) :=
  if lvl < grid.length ∧ idx < (grid.getD lvl []).length then
    .ok (grid.set lvl ((grid.getD lvl []).set idx v))
  else .error .indexOutOfRange

/-- `grid[lvl][idx]` with Go slice bounds semantics. -/
def readGridEntry (grid : List (List Hash)) (lvl idx : Nat) : Except GoPanic Hash :=
  if lvl < grid.length ∧ idx < (grid.getD lvl []).length then
    .ok ((grid.getD lvl []).getD idx [])
  else .error .indexOutOfRange

/-- The bottom-layer loop `for i := 0; i < powOfTwo(treeDepth); i++` writing
`nodes[lvl][i]`, with `i` running from `i0` to `count-1`. -/
def fillBottomLoop (hashes : List Hash) (grid : List (List Hash)) (lvl i0 count : Nat) :
    Except GoPanic (List (List Hash)) :=
  if h : i0 < count then do
    let v := if i0 < hashes.length then hashes.getD i0 [] else zeroEncoding
    let grid ← writeGridEntry grid lvl i0 v
    fillBottomLoop hashes grid lvl (i0 + 1) count
  else .ok grid
termination_by count - i0
decreasing_by simp_wf; omega

/-- The upper-level loop `for i := treeDepth - 1; i >= 0; i--`: allocate
`nodes[i]` and fill it from `nodes[i+1]`, reading with bounds checks. -/
def buildUpperLevels (M : MimcFn) (grid : List (List Hash)) :
    Nat → Except GoPanic (List (List Hash))
  | 0 => .ok grid
  | i + 1 => do
    let vals ← (List.range (powOfTwo i)).mapM fun j => do
      let a ← readGridEntry grid (i + 1) (2 * j)
      let b ← readGridEntry grid (i + 1) (2 * j + 1)
      pure (GoComputeHashOfTwoNodes M a b)
    buildUpperLevels M (grid.set i vals) i

/-- `goComputeMerkleTreenodesFromHashes` as written in `src/circuit/utils.go`:
after the leaf-limit check it allocates `nodes := make([][]Hash, treeDepth+1)`
and then `nodes[0] = make([]Hash, powOfTwo(treeDepth))` — note the index `0` —
before writing the bottom layer into `nodes[treeDepth]`. -/
def goComputeMerkleTreenodesFromHashes (M : MimcFn) (hashes : List Hash)
    (treeDepth : Nat) : Except GoPanic (List (List Hash)) :=
  if powOfTwo treeDepth < hashes.length then .error .tooManyLeaves
  else do
    let nodes : List (List Hash) :=
      (List.replicate (treeDepth + 1) []).set 0 (List.replicate (powOfTwo treeDepth) [])
    let nodes ← fillBottomLoop hashes nodes treeDepth 0 (powOfTwo treeDepth)
    buildUpperLevels M nodes treeDepth

/-! ## Completed proofs and the prover's persistence step (`core/prover.go`) -/

/-- `CompletedProof` (current revision).  `MerkleNodes` is a `[][]Hash` whose
`nil` state is `none`; `AssetSum` is a `*circuit.GoBalance` whose `nil` state
is `none`. -/
structure CompletedProof where
  Proof : String
  VerificationKey : String
  MerkleRoot : Hash
  MerkleRootWithAssetSumHash : Hash
  MerklePath : List Hash
  MerklePosition : Int
  MerkleNodes : Option (List (List Hash))
  AssetSum : Option GoBalance
  deriving Repr

instance : Inhabited CompletedProof :=
  ⟨{ Proof := "", VerificationKey := "", MerkleRoot := [],
     MerkleRootWithAssetSumHash := [], MerklePath := [], MerklePosition := 0,
     MerkleNodes := none, AssetSum := none }⟩

/-- `ConvertProofToGoAccount` from `core/utils.go`: panics when `AssetSum` is
nil, otherwise builds the account `{UserId: MerkleRoot, Balance: *AssetSum}`. -/
def ConvertProofToGoAccount (proof : CompletedProof) : Except GoPanic GoAccount :=
  match proof.AssetSum with
  | none => .error .nilAssetSum
  | some s => .ok { UserId := proof.MerkleRoot, Balance := s }

/-- Outcome of a verifier primitive that may return nil, return an error, or
panic (abort the process). -/
inductive VerifyOutcome where
  | ok
  | err (e : VerifyErr)
  | panicked (p : GoPanic)
  deriving DecidableEq, Repr

/-- `verifyTopLayerProofMatchesAssetSum` from `core/verifier.go`: error when
`AssetSum` is nil; otherwise hash `{UserId: MerkleRoot, Balance: *AssetSum}`
(which panics on a malformed balance) and compare with
`MerkleRootWithAssetSumHash`.  The proof is passed by value; nothing mutates it. -/
def verifyTopLayerProofMatchesAssetSum (M : MimcFn) (topLayerProof : CompletedProof) :
    VerifyOutcome :=
  match topLayerProof.AssetSum with
  | none => .err .assetSumNil
  | some s =>
    match GoComputeMiMCHashForAccount M { UserId := topLayerProof.MerkleRoot, Balance := s } with
    | .error p => .panicked p
    | .ok computedHash =>
      if computedHash = topLayerProof.MerkleRootWithAssetSumHash then .ok
      else .err .assetSumHashMismatch

/-- A file written by the persistence step: path and serialized proof value. -/
structure WrittenFile where
  path : String
  proof : CompletedProof

/-- The loop of `writeProofsToFiles`: `for i, proof := range proofs` binds
`proof` to a copy of `proofs[i]`; `proof.AssetSum = nil` assigns to that copy;
the file is written from the copy.  The slice is threaded through as the
mutable state the loop could have updated (it never does). -/
def writeProofsLoop (slice : List CompletedProof) (pre : String) (saveAssetSum : Bool)
    (i : Nat) (files : List WrittenFile) : List WrittenFile × List CompletedProof :=
  if h : i < slice.length then
    let proof := slice.getD i default
    let proof := if !saveAssetSum then { proof with AssetSum := none } else proof
    writeProofsLoop slice pre saveAssetSum (i + 1)
      (files ++ [⟨pre ++ toString i ++ ".json", proof⟩])
  else (files, slice)
termination_by slice.length - i
decreasing_by simp_wf; omega

/-- `writeProofsToFiles(proofs, prefix, saveAssetSum)`: returns the written
artifacts and the state of the caller's slice after the call. -/
def writeProofsToFiles (proofs : List CompletedProof) (pre : String)
    (saveAssetSum : Bool) : List WrittenFile × List CompletedProof :=
  writeProofsLoop proofs pre saveAssetSum 0 []

/-- `Prove`'s persistence of the bottom-level proofs:
`writeProofsToFiles(bottomLevelProofs, "out/public/test_proof_", false)`. -/
def provePersistBottom (bottomLevelProofs : List CompletedProof) :
    List WrittenFile × List CompletedProof :=
  writeProofsToFiles bottomLevelProofs "out/public/test_proof_" false

/-- `Prove`'s persistence of the mid-level proofs. -/
def provePersistMiddle (midLevelProofs : List CompletedProof) :
    List WrittenFile × List CompletedProof :=
  writeProofsToFiles midLevelProofs "out/public/test_mid_level_proof_" false

/-- `Prove`'s persistence of the top-level proof (`saveAssetSum = true`). -/
def provePersistTop (topLevelProof : CompletedProof) :
    List WrittenFile × List CompletedProof :=
  writeProofsToFiles [topLevelProof] "out/public/test_top_level_proof_" true

/-- The host-side account-count guard at the top of `Circuit.Define`
(`circuit/circuit.go` lines 119-127): panic when more than `2^TreeDepth`
accounts are wired.  The remainder of `Define` only emits gnark constraints
through the external `frontend.API` and is reached only when this guard
passes. -/
def circuitDefineAccountLimitCheck (numAccounts : Nat) : Except GoPanic Unit :=
  if powOfTwo TREE_DEPTH < numAccounts then .error .tooManyAccounts
  else .ok ()

/-! ## Raw user-id conversions (`circuit/utils.go` lines 247-274)

Go strings are modelled as lists of character codes (`List Nat`); 45 is `-`,
43 is `+`, 48-57 are `0`-`9`, 65-90 are `A`-`Z`, 97-122 are `a`-`z`. -/

/-- The digit value a character contributes in `big.Int.SetString` with base
36: `0`-`9` are 0-9, and both letter cases are 10-35. -/
def digitVal36 (c : Nat) : Option Nat :=
  if 48 ≤ c ∧ c ≤ 57 then some (c - 48)
  else if 97 ≤ c ∧ c ≤ 122 then some (c - 97 + 10)
  else if 65 ≤ c ∧ c ≤ 90 then some (c - 65 + 10)
  else none

/-- The digit alphabet of `big.Int.Text(36)`: `0`-`9` then lowercase `a`-`z`. -/
def digitCode36 (v : Nat) : Nat :=
  if v < 10 then 48 + v else 97 + (v - 10)

/-- Digit-wise lowercasing of a base-36 numeral character. -/
def lowerCode36 (c : Nat) : Nat :=
  if 65 ≤ c ∧ c ≤ 90 then c + 32 else c

/-- The value of a base-36 digit string (most significant first). -/
def valOfDigits36 (ds : List Nat) : Nat :=
  ds.foldl (fun acc c => acc * 36 + ((digitVal36 c).getD 0)) 0

/-- The digit-consuming loop of `big.Int.SetString` with base 36: fails on the
empty string or on any non-digit character. -/
def parseDigits36 (ds : List Nat) : Option Nat :=
  match ds with
  | [] => none
  | _ :: _ =>
    if ds.all fun c => (digitVal36 c).isSome then some (valOfDigits36 ds) else none

/-- `big.Int.SetString(s, 36)`: an optional single `+`/`-` sign followed by a
nonempty run of base-36 digits; anything else fails. -/
def goBigIntSetString36 (s : List Nat) : Option Int :=
  match s with
  | [] => none
  | c :: rest =>
    if c = 43 then (parseDigits36 rest).map fun n => (n : Int)
    else if c = 45 then (parseDigits36 rest).map fun n => -(n : Int)
    else (parseDigits36 (c :: rest)).map fun n => (n : Int)

/-- `strings.ReplaceAll(userId, "-", "")`. -/
def stripHyphens (s : List Nat) : List Nat := s.filter fun c => c ≠ 45

/-- `big.Int.Text(36)` for a non-negative value: repeated division, lowercase
digit alphabet, `"0"` for zero. -/
def writeBase36 (n : Nat) : List Nat :=
  if h : n < 36 then [digitCode36 n]
  else writeBase36 (n / 36) ++ [digitCode36 (n % 36)]
termination_by n
decreasing_by exact Nat.div_lt_self (by omega) (by norm_num)

/-- `convertRawUserIdToBytes`: strip hyphens, parse base 36 (panicking when
the parse fails), then take the big-endian bytes of the result. -/
def convertRawUserIdToBytes (userId : List Nat) : Except GoPanic Hash :=
  let cleanedUserId := stripHyphens userId
  match goBigIntSetString36 cleanedUserId with
  | none => .error .userIdParseFailure
  | some n => .ok (natToBytes n.natAbs)

/-- `RawGoAccount`: the on-file account with a string user id. -/
structure RawGoAccount where
  UserId : List Nat
  Balance : GoBalance
  deriving DecidableEq, Repr

/-- `ConvertRawGoAccountToGoAccount`. -/
def ConvertRawGoAccountToGoAccount (rawAccount : RawGoAccount) : Except GoPanic GoAccount := do
  let uid ← convertRawUserIdToBytes rawAccount.UserId
  pure { UserId := uid, Balance := rawAccount.Balance }

/-- `ConvertGoAccountToRawGoAccount`:
`new(big.Int).SetBytes(goAccount.UserId).Text(36)`. -/
def ConvertGoAccountToRawGoAccount (goAccount : GoAccount) : RawGoAccount :=
  { UserId := writeBase36 (bytesToNat goAccount.UserId), Balance := goAccount.Balance }

/-- Modelled from the claim's words: the canonical normalization of a user-id
string — hyphens removed, letter digits lowercased, leading zeros dropped
(an all-zero numeral collapsing to the single digit `0`). -/
def canonicalUserId (s : List Nat) : List Nat :=
  let u := ((stripHyphens s).map lowerCode36).dropWhile fun c => c = 48
  if u.isEmpty then [48] else u

/-! ## Spec-side reference definitions (for refinement statements) -/

/-- Modelled from the spec's words (§4.2 `sum`): the left fold of positional
addition over the batch starting at the zero balance. -/
def specSumBalances (accounts : List GoAccount) : GoBalance :=
  accounts.foldl (fun acc a => List.zipWith (· + ·) acc a.Balance) ConstructGoBalance

/-- The root stored in a node grid: sole entry of level 0. -/
def rootOf (grid : List (List Hash)) : Hash := (grid.getD 0 []).getD 0 []

/-- The value `writeProofsToFiles` serializes for one proof: the loop
variable's copy, with `AssetSum` cleared unless `saveAssetSum` is set. -/
def writtenProofArtifact (saveAssetSum : Bool) (proof : CompletedProof) : CompletedProof :=
  if !saveAssetSum then { proof with AssetSum := none } else proof

/-! ## A concrete MiMC stand-in for closed witness statements -/

/-- An arbitrary concrete digest function, used only to instantiate the
uninterpreted MiMC parameter in closed witness statements. -/
def mimcStub : MimcFn := fun bs => [bs.length % 256]

/-! # Theorems -/

/-! ## Byte-encoding lemmas -/

theorem bytesToNat_nil : bytesToNat [] = 0 := rfl

theorem bytesToNat_concat (bs : List Nat) (b : Nat) :
    bytesToNat (bs ++ [b]) = 256 * bytesToNat bs + b := by
  simp [bytesToNat, List.foldl_append, Nat.mul_comm]

theorem bytesToNat_natToBytes (n : Nat) : bytesToNat (natToBytes n) = n := by
  induction n using Nat.strong_induction_on with
  | _ n ih =>
    rw [natToBytes]
    split
    · simp [bytesToNat]; omega
    · rename_i h
      rw [bytesToNat_concat, ih (n / 256) (Nat.div_lt_self (Nat.pos_of_ne_zero h) (by norm_num))]
      omega

theorem natToBytes_length_le {k n : Nat} (h : n < 256 ^ k) : (natToBytes n).length ≤ k := by
  induction k generalizing n with
  | zero =>
    have : n = 0 := by simpa using h
    simp [this, natToBytes]
  | succ k ih =>
    rw [natToBytes]
    split
    · simp
    · rename_i hn
      have hdiv : n / 256 < 256 ^ k := by
        rw [Nat.div_lt_iff_lt_mul (by norm_num)]
        calc n < 256 ^ (k + 1) := h
        _ = 256 ^ k * 256 := by ring
      simpa using ih hdiv

theorem natToBytes_mem_lt {n b : Nat} (h : b ∈ natToBytes n) : b < 256 := by
  induction n using Nat.strong_induction_on with
  | _ n ih =>
    rw [natToBytes] at h
    split at h
    · simp at h
    · rename_i hn
      rcases List.mem_append.mp h with h1 | h1
      · exact ih (n / 256) (Nat.div_lt_self (Nat.pos_of_ne_zero hn) (by norm_num)) h1
      · simp at h1
        omega

theorem foldl_bytes_lt (bs : List Nat) (acc : Nat) (h : ∀ b ∈ bs, b < 256) :
    List.foldl (fun a b => a * 256 + b) acc bs < (acc + 1) * 256 ^ bs.length := by
  induction bs generalizing acc with
  | nil => simpa using Nat.lt_succ_self acc
  | cons b bs ih =>
    have hb : b < 256 := h b (by simp)
    have hrest : ∀ x ∈ bs, x < 256 := fun x hx => h x (by simp [hx])
    calc List.foldl (fun a c => a * 256 + c) (acc * 256 + b) bs
        < (acc * 256 + b + 1) * 256 ^ bs.length := ih _ hrest
      _ ≤ ((acc + 1) * 256) * 256 ^ bs.length := by
          have : acc * 256 + b + 1 ≤ (acc + 1) * 256 := by omega
          exact Nat.mul_le_mul_right _ this
      _ = (acc + 1) * 256 ^ (bs.length + 1) := by ring
      _ = (acc + 1) * 256 ^ (b :: bs).length := by simp

theorem bytesToNat_lt (bs : List Nat) (h : ∀ b ∈ bs, b < 256) :
    bytesToNat bs < 256 ^ bs.length := by
  simpa using foldl_bytes_lt bs 0 h

theorem natToBytes_length_gt {k n : Nat} (h : 256 ^ k ≤ n) : k < (natToBytes n).length := by
  by_contra hle
  push_neg at hle
  have h1 : n < 256 ^ (natToBytes n).length := by
    calc n = bytesToNat (natToBytes n) := (bytesToNat_natToBytes n).symm
    _ < 256 ^ (natToBytes n).length := bytesToNat_lt _ (fun b hb => natToBytes_mem_lt hb)
  have h2 : (256:Nat) ^ (natToBytes n).length ≤ 256 ^ k :=
    Nat.pow_le_pow_right (by norm_num) hle
  omega

theorem bytesToNat_replicate_zero_append (k : Nat) (bs : List Nat) :
    bytesToNat (List.replicate k 0 ++ bs) = bytesToNat bs := by
  induction k with
  | zero => simp
  | succ k ih => simpa [bytesToNat, List.replicate_succ] using ih

/-- C7: the canonical field-element encoding `padToModBytes` panics with the
NegativeValue condition on every negative input; on every non-negative value
that fits in `ModBytes = 32` bytes it returns the 32-byte big-endian
representation left-padded with zeros; and on every non-negative value whose
byte representation exceeds 32 bytes it signals the OverflowingValue
condition (the runtime `makeslice` panic) instead of returning a value. -/
theorem padToModBytes_spec (x : Int) :
    (x < 0 → padToModBytes x = .error .negativeValue) ∧
    (0 ≤ x → x < 2 ^ 256 →
      ∃ r, padToModBytes x = .ok r ∧
        r = List.replicate (ModBytes - (natToBytes x.toNat).length) 0 ++ natToBytes x.toNat ∧
        r.length = ModBytes ∧ (bytesToNat r : Int) = x) ∧
    (0 ≤ x → 2 ^ 256 ≤ x → padToModBytes x = .error .overflowingValue) := by
  refine ⟨fun hneg => ?_, fun h0 hlt => ?_, fun h0 hge => ?_⟩
  · simp [padToModBytes, hneg]
  · have hx : (x.toNat : Int) = x := Int.toNat_of_nonneg h0
    have hnat : x.toNat < 256 ^ ModBytes := by
      have : x < (256 : Int) ^ ModBytes := by
        calc x < 2 ^ 256 := hlt
        _ = (256 : Int) ^ ModBytes := by norm_num [ModBytes]
      exact_mod_cast hx ▸ this
    have hlen : (natToBytes x.toNat).length ≤ ModBytes := natToBytes_length_le hnat
    refine ⟨_, ?_, rfl, ?_, ?_⟩
    · rw [padToModBytes, if_neg (by omega)]
      simp only [if_neg (by omega : ¬ ModBytes < (natToBytes x.toNat).length)]
    · simp; omega
    · rw [bytesToNat_replicate_zero_append, bytesToNat_natToBytes, hx]
  · have hx : (x.toNat : Int) = x := Int.toNat_of_nonneg h0
    have hnat : 256 ^ ModBytes ≤ x.toNat := by
      have : (256 : Int) ^ ModBytes ≤ x := by
        calc (256 : Int) ^ ModBytes = 2 ^ 256 := by norm_num [ModBytes]
        _ ≤ x := hge
      exact_mod_cast hx ▸ this
    have hlen : ModBytes < (natToBytes x.toNat).length := natToBytes_length_gt hnat
    rw [padToModBytes, if_neg (by omega)]
    simp only [if_pos hlen]

/-- Closed instance of the C7 theorem at the inputs -5, 1000 and 2^256. -/
theorem padToModBytes_spec_witness :
    padToModBytes (-5) = .error .negativeValue ∧
    (∃ r, padToModBytes 1000 = .ok r ∧
        r = List.replicate (ModBytes - (natToBytes (1000 : Int).toNat).length) 0 ++
          natToBytes (1000 : Int).toNat ∧
        r.length = ModBytes ∧ (bytesToNat r : Int) = 1000) ∧
    padToModBytes (2 ^ 256) = .error .overflowingValue :=
  ⟨(padToModBytes_spec (-5)).1 (by norm_num),
   (padToModBytes_spec 1000).2.1 (by norm_num) (by norm_num),
   (padToModBytes_spec (2 ^ 256)).2.2 (by positivity) (le_refl _)⟩

/-! ## Balance-sum lemmas (C5) -/

theorem sumOneBalance_ok (a b : List Int) (hlen : a.length = b.length)
    (hpos : ∀ x ∈ b, 0 ≤ x) :
    sumOneBalance a b = .ok (List.zipWith (· + ·) a b) := by
  induction b generalizing a with
  | nil =>
    cases a with
    | nil => simp [sumOneBalance]
    | cons y as => simp at hlen
  | cons x bs ih =>
    cases a with
    | nil => simp at hlen
    | cons y as =>
      have hx : ¬ x < 0 := by
        have := hpos x (by simp)
        omega
      have := ih as (by simpa using hlen) (fun z hz => hpos z (by simp [hz]))
      simp [sumOneBalance, hx, this, Except.bind]

theorem sumOneBalance_err (a b : List Int) (hlen : a.length = b.length)
    (hneg : ∃ x ∈ b, x < 0) :
    sumOneBalance a b = .error .negativeAssetBalance := by
  induction b generalizing a with
  | nil => simp at hneg
  | cons x bs ih =>
    cases a with
    | nil => simp at hlen
    | cons y as =>
      by_cases hx : x < 0
      · simp [sumOneBalance, hx]
      · have hbs : ∃ z ∈ bs, z < 0 := by
          rcases hneg with ⟨z, hz, hzneg⟩
          rcases List.mem_cons.mp hz with rfl | hz2
          · omega
          · exact ⟨z, hz2, hzneg⟩
        have := ih as (by simpa using hlen) hbs
        simp [sumOneBalance, hx, this, Except.bind]

theorem zipWith_add_length (a b : List Int) (h : a.length = b.length) :
    (List.zipWith (· + ·) a b).length = a.length := by
  simp [List.length_zipWith, h]

theorem sumFold_ok (accounts : List GoAccount) (acc : GoBalance)
    (hacc : acc.length = GetNumberOfAssets)
    (hlen : ∀ a ∈ accounts, a.Balance.length = GetNumberOfAssets)
    (hpos : ∀ a ∈ accounts, ∀ x ∈ a.Balance, 0 ≤ x) :
    List.foldlM sumStep acc accounts =
      .ok (accounts.foldl (fun c a => List.zipWith (· + ·) c a.Balance) acc) := by
  induction accounts generalizing acc with
  | nil => rfl
  | cons a as ih =>
    have hl : a.Balance.length = GetNumberOfAssets := hlen a (by simp)
    have hstep : sumStep acc a = .ok (List.zipWith (· + ·) acc a.Balance) := by
      rw [sumStep, if_neg (by omega)]
      exact sumOneBalance_ok _ _ (by omega) (hpos a (by simp))
    have hacc2 : (List.zipWith (· + ·) acc a.Balance).length = GetNumberOfAssets := by
      rw [zipWith_add_length _ _ (by omega)]; exact hacc
    simp only [List.foldlM_cons, hstep, Except.bind, List.foldl_cons]
    exact ih _ hacc2 (fun x hx => hlen x (by simp [hx])) (fun x hx => hpos x (by simp [hx]))

theorem sumFold_err (accounts : List GoAccount) (acc : GoBalance)
    (hacc : acc.length = GetNumberOfAssets)
    (hlen : ∀ a ∈ accounts, a.Balance.length = GetNumberOfAssets)
    (hneg : ∃ a ∈ accounts, ∃ x ∈ a.Balance, x < 0) :
    List.foldlM sumStep acc accounts = .error .negativeAssetBalance := by
  induction accounts generalizing acc with
  | nil => simp at hneg
  | cons a as ih =>
    have hl : a.Balance.length = GetNumberOfAssets := hlen a (by simp)
    by_cases ha : ∃ x ∈ a.Balance, x < 0
    · have hstep : sumStep acc a = .error .negativeAssetBalance := by
        rw [sumStep, if_neg (by omega)]
        exact sumOneBalance_err _ _ (by omega) ha
      simp only [List.foldlM_cons, hstep]
      rfl
    · push_neg at ha
      have hpos : ∀ x ∈ a.Balance, 0 ≤ x := fun x hx => not_lt.mp (by exact fun h => absurd h (by simpa using ha x hx))
      have hstep : sumStep acc a = .ok (List.zipWith (· + ·) acc a.Balance) := by
        rw [sumStep, if_neg (by omega)]
        exact sumOneBalance_ok _ _ (by omega) hpos
      have has : ∃ b ∈ as, ∃ x ∈ b.Balance, x < 0 := by
        rcases hneg with ⟨b, hb, hx⟩
        rcases List.mem_cons.mp hb with rfl | hb2
        · rcases hx with ⟨x, hx1, hx2⟩
          exact absurd hx2 (by simpa using ha x hx1)
        · exact ⟨b, hb2, hx⟩
      have hacc2 : (List.zipWith (· + ·) acc a.Balance).length = GetNumberOfAssets := by
        rw [zipWith_add_length _ _ (by omega)]; exact hacc
      simp only [List.foldlM_cons, hstep, Except.bind]
      exact ih _ hacc2 (fun x hx => hlen x (by simp [hx])) has

/-- C5: over any account list whose balances all have the asset-count length,
`SumGoAccountBalances` returns the component-wise integer sum of the balances
— the left fold of positional addition from the all-zero balance, with no
field reduction — and panics with the NegativeValue condition whenever some
input balance component is negative. -/
theorem SumGoAccountBalances_spec (accounts : List GoAccount)
    (hlen : ∀ a ∈ accounts, a.Balance.length = GetNumberOfAssets) :
    ((∀ a ∈ accounts, ∀ x ∈ a.Balance, 0 ≤ x) →
        SumGoAccountBalances accounts = .ok (specSumBalances accounts)) ∧
    ((∃ a ∈ accounts, ∃ x ∈ a.Balance, x < 0) →
        SumGoAccountBalances accounts = .error .negativeAssetBalance) := by
  constructor
  · intro hpos
    rw [SumGoAccountBalances, specSumBalances]
    exact sumFold_ok accounts ConstructGoBalance (by simp [ConstructGoBalance]) hlen hpos
  · intro hneg
    rw [SumGoAccountBalances]
    exact sumFold_err accounts ConstructGoBalance (by simp [ConstructGoBalance]) hlen hneg

/-- Closed instance of the C5 theorem: a one-account batch sums to its
balance, and a batch containing a negative component panics. -/
theorem SumGoAccountBalances_spec_witness :
    SumGoAccountBalances [⟨[1], List.replicate 40 (2 : Int)⟩] =
      .ok (specSumBalances [⟨[1], List.replicate 40 (2 : Int)⟩]) ∧
    SumGoAccountBalances [⟨[1], (-1) :: List.replicate 39 (0 : Int)⟩] =
      .error .negativeAssetBalance :=
  ⟨(SumGoAccountBalances_spec _ (by decide)).1 (by decide),
   (SumGoAccountBalances_spec _ (by decide)).2 (by decide)⟩

/-! ## Merkle-path verification (C2) -/

/-- The code's swap-then-hash fold agrees with the spec's parity rule. -/
theorem verifyFoldAux_eq_specReconstruct (M : MimcFn) (path : List Hash)
    (curr : Hash) (pos : Nat) :
    verifyFoldAux M curr pos path = specReconstruct M curr pos path := by
  induction path generalizing curr pos with
  | nil => rfl
  | cons sib rest ih =>
    rcases Nat.mod_two_eq_zero_or_one pos with h | h <;>
      simp [verifyFoldAux, specReconstruct, h, ih]

/-- C2: `verifyMerklePath` returns the PathLengthMismatch error when the path
length differs from the tree depth 10; the PositionOutOfRange error when the
position is negative or at least 2^10; and otherwise folds the path with the
parity rule — even position hashes (current, sibling), odd position hashes
(sibling, current), halving the position each step — returning nil exactly
when the folded value equals the expected root (and the RootMismatch error
otherwise). -/
theorem verifyMerklePath_spec (M : MimcFn) (hash : Hash) (pos : Int)
    (path : List Hash) (root : Hash) :
    (path.length ≠ TREE_DEPTH →
        verifyMerklePath M hash pos path root = .error .pathLengthMismatch) ∧
    (path.length = TREE_DEPTH → (pos < 0 ∨ (powOfTwo TREE_DEPTH : Int) ≤ pos) →
        verifyMerklePath M hash pos path root = .error .positionOutOfRange) ∧
    (path.length = TREE_DEPTH → 0 ≤ pos → pos < (powOfTwo TREE_DEPTH : Int) →
        ((verifyMerklePath M hash pos path root = .ok ()) ↔
          specReconstruct M hash pos.toNat path = root)) := by
  refine ⟨fun hlen => ?_, fun hlen hpos => ?_, fun hlen hpos1 hpos2 => ?_⟩
  · simp [verifyMerklePath, hlen]
  · rw [verifyMerklePath, if_neg (by omega), if_pos hpos]
  · rw [verifyMerklePath, if_neg (by omega), if_neg (by omega),
      verifyFoldAux_eq_specReconstruct]
    constructor
    · intro h
      by_contra hne
      rw [if_neg hne] at h
      exact Except.noConfusion h
    · intro h
      rw [if_pos h]

/-- Closed instance of the C2 theorem: an empty path is a length mismatch; a
negative position is out of range; and at position 0 with a 10-step path the
result is nil exactly when the reconstruction meets the root. -/
theorem verifyMerklePath_spec_witness :
    verifyMerklePath mimcStub [7] 0 [] [1] = .error .pathLengthMismatch ∧
    verifyMerklePath mimcStub [7] (-1) (List.replicate 10 []) [1] =
      .error .positionOutOfRange ∧
    ((verifyMerklePath mimcStub [7] 0 (List.replicate 10 []) [1] = .ok ()) ↔
      specReconstruct mimcStub [7] (0 : Int).toNat (List.replicate 10 []) = [1]) :=
  ⟨(verifyMerklePath_spec mimcStub [7] 0 [] [1]).1 (by decide),
   (verifyMerklePath_spec mimcStub [7] (-1) (List.replicate 10 []) [1]).2.1
     (by decide) (by norm_num),
   (verifyMerklePath_spec mimcStub [7] 0 (List.replicate 10 []) [1]).2.2
     (by decide) (by norm_num) (by decide)⟩

/-! ## Top-layer asset-sum verification (C6)

The claim states that in every non-nil case `verifyTopLayerProofMatchesAssetSum`
*returns an error*.  That is false: when `AssetSum` is present but malformed
(wrong length or a negative component), `GoComputeMiMCHashForAccount` panics
— the process aborts instead of an `error` being returned. -/

/-- Refutation of C6 as stated: at a proof whose `AssetSum` is present but
empty, the function panics (`INVALID_BALANCE_LENGTH_MESSAGE` inside
`goConvertBalanceToBytes`) rather than returning an error value. -/
theorem verifyTopLayerProof_claim_counterexample :
    verifyTopLayerProofMatchesAssetSum mimcStub
      { Proof := "", VerificationKey := "", MerkleRoot := [],
        MerkleRootWithAssetSumHash := [], MerklePath := [], MerklePosition := 0,
        MerkleNodes := none, AssetSum := some [] } =
      .panicked .balanceLengthMismatch := by
  decide

/-- C6 (amended): `verifyTopLayerProofMatchesAssetSum(top)` returns nil iff
`top.AssetSum` is non-nil and the MiMC account hash of
`{UserId: top.MerkleRoot, Balance: *top.AssetSum}` is defined and equals
`top.MerkleRootWithAssetSumHash`; it returns an error when `AssetSum` is nil
or the hash differs; but when `AssetSum` is present and malformed it panics
(aborting) instead of returning an error.  The proof argument is passed by
value and never mutated. -/
theorem verifyTopLayerProof_spec (M : MimcFn) (p : CompletedProof) :
    (p.AssetSum = none →
        verifyTopLayerProofMatchesAssetSum M p = .err .assetSumNil) ∧
    (∀ s, p.AssetSum = some s →
      (∀ gp, GoComputeMiMCHashForAccount M { UserId := p.MerkleRoot, Balance := s } = .error gp →
          verifyTopLayerProofMatchesAssetSum M p = .panicked gp) ∧
      (∀ h, GoComputeMiMCHashForAccount M { UserId := p.MerkleRoot, Balance := s } = .ok h →
        (h = p.MerkleRootWithAssetSumHash →
            verifyTopLayerProofMatchesAssetSum M p = .ok) ∧
        (h ≠ p.MerkleRootWithAssetSumHash →
            verifyTopLayerProofMatchesAssetSum M p = .err .assetSumHashMismatch))) ∧
    (verifyTopLayerProofMatchesAssetSum M p = .ok ↔
      ∃ s h, p.AssetSum = some s ∧
        GoComputeMiMCHashForAccount M { UserId := p.MerkleRoot, Balance := s } = .ok h ∧
        h = p.MerkleRootWithAssetSumHash) := by
  refine ⟨fun hnone => ?_, fun s hs => ⟨fun gp hgp => ?_, fun h hh => ⟨fun he => ?_, fun hne => ?_⟩⟩, ?_⟩
  · simp [verifyTopLayerProofMatchesAssetSum, hnone]
  · simp [verifyTopLayerProofMatchesAssetSum, hs, hgp]
  · simp [verifyTopLayerProofMatchesAssetSum, hs, hh, he]
  · simp [verifyTopLayerProofMatchesAssetSum, hs, hh, hne]
  · constructor
    · intro hok
      rcases hsum : p.AssetSum with _ | s
      · simp [verifyTopLayerProofMatchesAssetSum, hsum] at hok
      · rcases hhash : GoComputeMiMCHashForAccount M { UserId := p.MerkleRoot, Balance := s } with gp | h
        · simp [verifyTopLayerProofMatchesAssetSum, hsum, hhash] at hok
        · by_cases he : h = p.MerkleRootWithAssetSumHash
          · exact ⟨s, h, rfl, hhash, he⟩
          · simp [verifyTopLayerProofMatchesAssetSum, hsum, hhash, he] at hok
    · rintro ⟨s, h, hs, hh, he⟩
      simp [verifyTopLayerProofMatchesAssetSum, hs, hh, he]

/-- Closed instance of the amended C6 theorem at a nil-`AssetSum` proof and at
a proof whose present `AssetSum` has the wrong length (the panic case). -/
theorem verifyTopLayerProof_spec_witness :
    verifyTopLayerProofMatchesAssetSum mimcStub
      { Proof := "", VerificationKey := "", MerkleRoot := [],
        MerkleRootWithAssetSumHash := [], MerklePath := [], MerklePosition := 0,
        MerkleNodes := none, AssetSum := none } = .err .assetSumNil ∧
    verifyTopLayerProofMatchesAssetSum mimcStub
      { Proof := "", VerificationKey := "", MerkleRoot := [2],
        MerkleRootWithAssetSumHash := [1], MerklePath := [], MerklePosition := 0,
        MerkleNodes := none, AssetSum := some [3] } =
      .panicked .balanceLengthMismatch :=
  ⟨(verifyTopLayerProof_spec mimcStub _).1 rfl,
   ((verifyTopLayerProof_spec mimcStub _).2.1 [3] rfl).1 .balanceLengthMismatch
     (by rfl)⟩

/-! ## The prover's persistence step (C4, C10) -/

theorem writeProofsLoop_spec (slice : List CompletedProof) (pre : String)
    (save : Bool) :
    ∀ i files, writeProofsLoop slice pre save i files =
      (files ++ (List.enumFrom i (slice.drop i)).map
          (fun q => ⟨pre ++ toString q.1 ++ ".json", writtenProofArtifact save q.2⟩),
        slice) := by
  have key : ∀ (k i : Nat), slice.length - i = k → ∀ files,
      writeProofsLoop slice pre save i files =
        (files ++ (List.enumFrom i (slice.drop i)).map
            (fun q => ⟨pre ++ toString q.1 ++ ".json", writtenProofArtifact save q.2⟩),
          slice) := by
    intro k
    induction k with
    | zero =>
      intro i hk files
      have hge : slice.length ≤ i := by omega
      rw [writeProofsLoop, dif_neg (by omega)]
      simp [List.drop_eq_nil_of_le hge]
    | succ k ih =>
      intro i hk files
      have hlt : i < slice.length := by omega
      rw [writeProofsLoop, dif_pos hlt]
      rw [ih (i + 1) (by omega)]
      have hdrop : slice.drop i = slice[i] :: slice.drop (i + 1) :=
        List.drop_eq_getElem_cons hlt
      have hgetD : slice.getD i default = slice[i] := List.getD_eq_getElem slice default hlt
      rw [hdrop]
      simp only [List.enumFrom, List.map_cons, hgetD]
      rw [List.append_assoc]
      rfl
  intro i files
  exact key (slice.length - i) i rfl files

theorem enumFrom_map_snd {α β : Type} (g : α → β) :
    ∀ (l : List α) (n : Nat), (List.enumFrom n l).map (fun q => g q.2) = l.map g := by
  intro l
  induction l with
  | nil => intro n; rfl
  | cons x xs ih => intro n; simp [List.enumFrom, ih]

/-- C10: `writeProofsToFiles` never mutates the caller's slice — the range
loop variable is a per-iteration copy, and the `AssetSum = nil` assignment
lands on that copy — so every element (in particular its `AssetSum`) is
unchanged after the call, while the written artifacts (with
`saveAssetSum = false`, as `Prove` uses for bottom proofs before reading their
`AssetSum` back to build the middle layer) carry `AssetSum = nil`. -/
theorem writeProofsToFiles_frame (proofs : List CompletedProof) (pre : String)
    (saveAssetSum : Bool) :
    (writeProofsToFiles proofs pre saveAssetSum).2 = proofs ∧
    ((writeProofsToFiles proofs pre false).1.map fun f => f.proof.AssetSum) =
      proofs.map (fun _ => none) := by
  constructor
  · rw [writeProofsToFiles, writeProofsLoop_spec]
  · rw [writeProofsToFiles, writeProofsLoop_spec]
    simp only [List.nil_append, List.drop_zero, List.map_map]
    show (List.enumFrom 0 proofs).map
        (fun q => (writtenProofArtifact false q.2).AssetSum) =
      proofs.map (fun _ => none)
    rw [enumFrom_map_snd (fun p => (writtenProofArtifact false p).AssetSum)]
    simp [writtenProofArtifact]

/-- Refutation of C4 as stated: a bottom-level proof persisted by `Prove`
(via `writeProofsToFiles` with the `out/public/test_proof_` prefix and
`saveAssetSum = false`) keeps its `MerkleNodes` grid in the written artifact;
only `AssetSum` is stripped.  The claim's `MerkleNodes = nil` is false. -/
theorem provePersist_merkleNodes_retained :
    ((provePersistBottom
        [{ Proof := "", VerificationKey := "", MerkleRoot := [],
           MerkleRootWithAssetSumHash := [], MerklePath := [], MerklePosition := 0,
           MerkleNodes := some [[[2]]], AssetSum := some [1] }]).1.map
      fun f => (f.proof.MerkleNodes, f.proof.AssetSum)) = [(some [[[2]]], none)] := by
  rw [provePersistBottom, writeProofsToFiles, writeProofsLoop_spec]
  rfl

/-- C4 (amended): `Prove` persists every bottom-level and middle-level proof
with `AssetSum = nil` but with `MerkleNodes` left untouched (the grid is
retained in the artifact — the full-verify mode reads it back), and persists
the top-level proof unstripped, with its `AssetSum` set. -/
theorem provePersist_spec (bottoms mids : List CompletedProof)
    (top : CompletedProof) (s : GoBalance) (hs : top.AssetSum = some s) :
    ((provePersistBottom bottoms).1.map fun f => f.proof) =
      bottoms.map (writtenProofArtifact false) ∧
    ((provePersistMiddle mids).1.map fun f => f.proof) =
      mids.map (writtenProofArtifact false) ∧
    (∀ p, (writtenProofArtifact false p).AssetSum = none ∧
      (writtenProofArtifact false p).MerkleNodes = p.MerkleNodes) ∧
    ((provePersistTop top).1.map fun f => f.proof) = [top] ∧
    ((provePersistTop top).1.map fun f => f.proof.AssetSum) = [some s] := by
  refine ⟨?_, ?_, fun p => ⟨rfl, rfl⟩, ?_, ?_⟩
  · rw [provePersistBottom, writeProofsToFiles, writeProofsLoop_spec]
    simp only [List.nil_append, List.drop_zero, List.map_map]
    show (List.enumFrom 0 bottoms).map (fun q => writtenProofArtifact false q.2) =
      bottoms.map (writtenProofArtifact false)
    exact enumFrom_map_snd (writtenProofArtifact false) bottoms 0
  · rw [provePersistMiddle, writeProofsToFiles, writeProofsLoop_spec]
    simp only [List.nil_append, List.drop_zero, List.map_map]
    show (List.enumFrom 0 mids).map (fun q => writtenProofArtifact false q.2) =
      mids.map (writtenProofArtifact false)
    exact enumFrom_map_snd (writtenProofArtifact false) mids 0
  · rw [provePersistTop, writeProofsToFiles, writeProofsLoop_spec]
    rfl
  · rw [provePersistTop, writeProofsToFiles, writeProofsLoop_spec]
    simp [List.enumFrom, writtenProofArtifact, hs]

/-- Closed instance of the amended C4 theorem at a singleton bottom list, an
empty middle list, and a top proof with a set `AssetSum`. -/
theorem provePersist_spec_witness :
    ((provePersistBottom
        [{ Proof := "", VerificationKey := "", MerkleRoot := [],
           MerkleRootWithAssetSumHash := [], MerklePath := [], MerklePosition := 0,
           MerkleNodes := some [[[7]]], AssetSum := some [4] }]).1.map
      fun f => f.proof) =
      [{ Proof := "", VerificationKey := "", MerkleRoot := [],
         MerkleRootWithAssetSumHash := [], MerklePath := [], MerklePosition := 0,
         MerkleNodes := some [[[7]]], AssetSum := some [4] }].map
        (writtenProofArtifact false) ∧
    ((provePersistTop
        { Proof := "", VerificationKey := "", MerkleRoot := [],
          MerkleRootWithAssetSumHash := [], MerklePath := [], MerklePosition := 0,
          MerkleNodes := none, AssetSum := some [5] }).1.map
      fun f => f.proof.AssetSum) = [some [5]] :=
  ⟨(provePersist_spec
      [{ Proof := "", VerificationKey := "", MerkleRoot := [],
         MerkleRootWithAssetSumHash := [], MerklePath := [], MerklePosition := 0,
         MerkleNodes := some [[[7]]], AssetSum := some [4] }] []
      { Proof := "", VerificationKey := "", MerkleRoot := [],
        MerkleRootWithAssetSumHash := [], MerklePath := [], MerklePosition := 0,
        MerkleNodes := none, AssetSum := some [5] } [5] rfl).1,
   (provePersist_spec [] []
      { Proof := "", VerificationKey := "", MerkleRoot := [],
        MerkleRootWithAssetSumHash := [], MerklePath := [], MerklePosition := 0,
        MerkleNodes := none, AssetSum := some [5] } [5] rfl).2.2.2.2⟩

/-! ## Leaf limits (C8) -/

/-- C8: the Merkle-root computation succeeds on exactly 2^10 leaf hashes and
panics with the TooManyLeaves condition on 2^10 + 1 leaf hashes (the check
precedes any hashing); likewise `Circuit.Define`'s host-side guard panics
whenever more than 2^10 accounts are supplied, before any constraint is
emitted, so no proof is produced. -/
theorem leafLimit_spec :
    (∀ (M : MimcFn) (hashes : List Hash), hashes.length = ACCOUNTS_PER_BATCH →
        ∃ r, GoComputeMerkleRootFromHashes M hashes = .ok r) ∧
    (∀ (M : MimcFn) (hashes : List Hash), hashes.length = ACCOUNTS_PER_BATCH + 1 →
        GoComputeMerkleRootFromHashes M hashes = .error .tooManyLeaves) ∧
    (∀ numAccounts : Nat, ACCOUNTS_PER_BATCH < numAccounts →
        circuitDefineAccountLimitCheck numAccounts = .error .tooManyAccounts) := by
  have hab : ACCOUNTS_PER_BATCH = powOfTwo TREE_DEPTH := rfl
  refine ⟨fun M hashes hlen => ?_, fun M hashes hlen => ?_, fun n hn => ?_⟩
  · rw [GoComputeMerkleRootFromHashes, goComputeMerkleRootFromHashes,
      if_neg (by omega)]
    exact ⟨_, rfl⟩
  · rw [GoComputeMerkleRootFromHashes, goComputeMerkleRootFromHashes,
      if_pos (by omega)]
  · rw [circuitDefineAccountLimitCheck, if_pos (by omega)]

/-- Closed instance of the C8 theorem at 1024 and 1025 concrete leaves and at
an account count of 1025. -/
theorem leafLimit_spec_witness :
    (∃ r, GoComputeMerkleRootFromHashes mimcStub (List.replicate 1024 []) = .ok r) ∧
    GoComputeMerkleRootFromHashes mimcStub (List.replicate 1025 []) =
      .error .tooManyLeaves ∧
    circuitDefineAccountLimitCheck 1025 = .error .tooManyAccounts :=
  ⟨leafLimit_spec.1 mimcStub _ (by rw [List.length_replicate]; rfl),
   leafLimit_spec.2.1 mimcStub _ (by rw [List.length_replicate]; rfl),
   leafLimit_spec.2.2 1025 (by decide)⟩

/-! ## The superseded grid builder always panics at depth 10 (C3) -/

/-- C3 (code evaluated at the failing input): the `src/circuit/utils.go`
revision of the node-grid builder allocates `nodes[0]` instead of
`nodes[treeDepth]`, so at tree depth 10 every call (any leaf list within the
leaf limit) hits the Go index-out-of-range panic while writing the bottom
layer into the unallocated `nodes[10]`, instead of returning the 11-level
grid the claim (and the fixed `goComputeMerkleTreeNodesFromHashes` revision)
describes. -/
theorem goComputeMerkleTreenodes_depth10_panics (M : MimcFn) (hashes : List Hash)
    (h : hashes.length ≤ ACCOUNTS_PER_BATCH) :
    goComputeMerkleTreenodesFromHashes M hashes TREE_DEPTH =
      .error .indexOutOfRange := by
  have hab : ACCOUNTS_PER_BATCH = powOfTwo TREE_DEPTH := rfl
  rw [goComputeMerkleTreenodesFromHashes, if_neg (by omega)]
  have hfill : fillBottomLoop hashes
      ((List.replicate (TREE_DEPTH + 1) []).set 0
        (List.replicate (powOfTwo TREE_DEPTH) []))
      TREE_DEPTH 0 (powOfTwo TREE_DEPTH) = .error .indexOutOfRange := by
    rw [fillBottomLoop, dif_pos (by decide)]
    have hw : writeGridEntry
        ((List.replicate (TREE_DEPTH + 1) []).set 0
          (List.replicate (powOfTwo TREE_DEPTH) []))
        TREE_DEPTH 0 (if 0 < hashes.length then hashes.getD 0 [] else zeroEncoding) =
        .error .indexOutOfRange := by
      rw [writeGridEntry, if_neg]
      intro hc
      exact absurd hc.2 (by decide)
    simp only [hw]
    rfl
  simp only [hfill]
  rfl

/-- Closed instance of the C3 theorem at the empty leaf list. -/
theorem goComputeMerkleTreenodes_depth10_panics_witness :
    goComputeMerkleTreenodesFromHashes mimcStub [] TREE_DEPTH =
      .error .indexOutOfRange :=
  goComputeMerkleTreenodes_depth10_panics mimcStub [] (by decide)

/-! ## Merkle grid/path/root lemmas (C1) -/

theorem powOfTwo_eq (n : Nat) : powOfTwo n = 2 ^ n := by
  simp [powOfTwo, Nat.shiftLeft_eq]

theorem powOfTwo_succ (i : Nat) : powOfTwo (i + 1) = 2 * powOfTwo i := by
  rw [powOfTwo_eq, powOfTwo_eq, Nat.pow_succ]
  ring

theorem powOfTwo_pos (n : Nat) : 0 < powOfTwo n := by
  rw [powOfTwo_eq]
  positivity

theorem range_map_getD {α : Type} (f : Nat → α) (n j : Nat) (d : α) (h : j < n) :
    ((List.range n).map f).getD j d = f j := by
  rw [List.getD_eq_getElem _ d (by simpa using h)]
  simp

theorem padTo_length (hashes : List Hash) (n : Nat) : (padTo hashes n).length = n := by
  simp [padTo]

theorem padTo_getD (hashes : List Hash) {n i : Nat} (hi : i < hashes.length)
    (hn : i < n) : (padTo hashes n).getD i [] = hashes.getD i [] := by
  rw [padTo, range_map_getD _ _ _ _ hn, if_pos hi]

theorem parentLevel_length (M : MimcFn) (c : List Hash) (w : Nat) :
    (parentLevel M c w).length = w := by
  simp [parentLevel]

theorem parentLevel_getD (M : MimcFn) (c : List Hash) {w j : Nat} (h : j < w) :
    (parentLevel M c w).getD j [] =
      GoComputeHashOfTwoNodes M (c.getD (2 * j) []) (c.getD (2 * j + 1) []) := by
  rw [parentLevel, range_map_getD _ _ _ _ h]

theorem buildStack_length (M : MimcFn) : ∀ (i : Nat) (cur : List Hash),
    (buildStack M cur i).length = i + 1 := by
  intro i
  induction i with
  | zero => intro cur; rfl
  | succ i ih =>
    intro cur
    rw [buildStack]
    simp [ih]

theorem buildStack_getD_last (M : MimcFn) : ∀ (i : Nat) (cur : List Hash),
    (buildStack M cur i).getD i [] = cur := by
  intro i
  cases i with
  | zero => intro cur; rfl
  | succ i =>
    intro cur
    rw [buildStack, List.getD_append_right _ _ _ _ (by rw [buildStack_length])]
    rw [buildStack_length]
    simp

theorem rootOf_append {g : List (List Hash)} (x : List Hash) (h : 0 < g.length) :
    rootOf (g ++ [x]) = rootOf g := by
  rw [rootOf, rootOf, List.getD_append _ _ _ _ h]

theorem computePathAux_append (x : List Hash) : ∀ (i pos : Nat)
    (g : List (List Hash)), i < g.length →
    computePathAux (g ++ [x]) pos i = computePathAux g pos i := by
  intro i
  induction i with
  | zero => intro pos g _; rfl
  | succ i ih =>
    intro pos g hg
    simp only [computePathAux]
    rw [List.getD_append _ _ _ _ hg, ih (pos / 2) g (by omega)]

/-- Core induction for C1: from any layer of width `2^i`, the path produced
by the `ComputeMerklePath` loop exists, has length `i`, and the
`verifyMerklePath` fold from the layer's `pos`-th entry reaches the root of
the stack built above the layer. -/
theorem pathRoot (M : MimcFn) : ∀ (i : Nat) (cur : List Hash) (pos : Nat),
    cur.length = powOfTwo i → pos < powOfTwo i →
    ∃ p, computePathAux (buildStack M cur i) pos i = .ok p ∧ p.length = i ∧
      verifyFoldAux M (cur.getD pos []) pos p = rootOf (buildStack M cur i) := by
  intro i
  induction i with
  | zero =>
    intro cur pos hcl hpos
    have hp0 : pos = 0 := by
      have : powOfTwo 0 = 1 := rfl
      omega
    exact ⟨[], rfl, rfl, by simp [hp0, verifyFoldAux, buildStack, rootOf]⟩
  | succ i ih =>
    intro cur pos hcl hpos
    have hhalf : pos / 2 < powOfTwo i := by
      have := powOfTwo_succ i
      omega
    obtain ⟨p, hp, hplen, hfold⟩ :=
      ih (parentLevel M cur (powOfTwo i)) (pos / 2) (parentLevel_length M _ _) hhalf
    have hG : (buildStack M (parentLevel M cur (powOfTwo i)) i).length = i + 1 :=
      buildStack_length M i _
    refine ⟨(if pos % 2 = 0 then cur.getD (pos + 1) [] else cur.getD (pos - 1) []) :: p,
      ?_, by simpa using hplen, ?_⟩
    · rw [buildStack]
      simp only [computePathAux]
      rw [List.getD_append_right _ _ _ _ (by omega), hG]
      simp only [Nat.sub_self, List.getD_cons_zero]
      rw [if_neg (by omega)]
      rw [computePathAux_append _ i (pos / 2) _ (by omega), hp]
      rfl
    · have hstep : (if pos % 2 = 1
          then GoComputeHashOfTwoNodes M
            (if pos % 2 = 0 then cur.getD (pos + 1) [] else cur.getD (pos - 1) [])
            (cur.getD pos [])
          else GoComputeHashOfTwoNodes M (cur.getD pos [])
            (if pos % 2 = 0 then cur.getD (pos + 1) [] else cur.getD (pos - 1) [])) =
          (parentLevel M cur (powOfTwo i)).getD (pos / 2) [] := by
        rw [parentLevel_getD M cur hhalf]
        rcases Nat.mod_two_eq_zero_or_one pos with he | ho
        · rw [if_neg (by omega), if_pos he]
          have h2 : 2 * (pos / 2) + 1 = pos + 1 := by omega
          have h1 : 2 * (pos / 2) = pos := by omega
          rw [h2, h1]
        · rw [if_pos ho, if_neg (by omega)]
          have h2 : 2 * (pos / 2) + 1 = pos := by omega
          have h1 : 2 * (pos / 2) = pos - 1 := by omega
          rw [h2, h1]
      rw [verifyFoldAux, hstep, hfold, buildStack, rootOf_append _ (by omega)]

theorem rootPassAux_spec (M : MimcFn) (cnt : Nat) : ∀ (d j : Nat) (arr : List Hash),
    cnt - j = d → j ≤ cnt → cnt ≤ arr.length →
    rootPassAux M arr j cnt = arr.take j ++ (List.range' j (cnt - j)).map
        (fun k => GoComputeHashOfTwoNodes M (arr.getD (2 * k) []) (arr.getD (2 * k + 1) [])) ++
      arr.drop cnt := by
  intro d
  induction d with
  | zero =>
    intro j arr hd hj hc
    have hjc : j = cnt := by omega
    rw [rootPassAux, dif_neg (by omega), hd]
    subst hjc
    simp
  | succ d ihd =>
    intro j arr hd hj hc
    have hjlt : j < cnt := by omega
    have hjarr : j < arr.length := by omega
    rw [rootPassAux, dif_pos hjlt]
    set v := GoComputeHashOfTwoNodes M (arr.getD (2 * j) []) (arr.getD (2 * j + 1) []) with hv
    rw [ihd (j + 1) (arr.set j v) (by omega) (by omega) (by simpa using hc)]
    have htake : (arr.set j v).take (j + 1) = arr.take j ++ [v] := by
      rw [List.set_take]
      rw [List.take_succ, List.getElem?_eq_getElem hjarr]
      rw [List.set_append_right _ _ (by rw [List.length_take]; omega)]
      congr 1
      have : (arr.take j).length = j := by rw [List.length_take]; omega
      rw [this]
      simp
    have hdrop : (arr.set j v).drop cnt = arr.drop cnt := by
      rw [List.drop_set, if_pos (by omega)]
    have hmap : (List.range' (j + 1) (cnt - (j + 1))).map
        (fun k => GoComputeHashOfTwoNodes M ((arr.set j v).getD (2 * k) [])
          ((arr.set j v).getD (2 * k + 1) [])) =
        (List.range' (j + 1) (cnt - (j + 1))).map
        (fun k => GoComputeHashOfTwoNodes M (arr.getD (2 * k) [])
          (arr.getD (2 * k + 1) [])) := by
      apply List.map_congr_left
      intro k hk
      have hk1 : j + 1 ≤ k := by
        rcases List.mem_range'.mp hk with ⟨m, hm, rfl⟩
        omega
      have e1 : (arr.set j v).getD (2 * k) [] = arr.getD (2 * k) [] := by
        simp only [List.getD_eq_getElem?_getD, List.getElem?_set_ne (by omega : j ≠ 2 * k)]
      have e2 : (arr.set j v).getD (2 * k + 1) [] = arr.getD (2 * k + 1) [] := by
        simp only [List.getD_eq_getElem?_getD, List.getElem?_set_ne (by omega : j ≠ 2 * k + 1)]
      rw [e1, e2]
    rw [htake, hdrop, hmap]
    have hrange : List.range' j (cnt - j) = j :: List.range' (j + 1) (cnt - (j + 1)) := by
      have : cnt - j = (cnt - (j + 1)) + 1 := by omega
      rw [this, List.range'_succ]
    rw [hrange]
    simp only [List.map_cons, List.append_assoc, List.cons_append, List.nil_append]

theorem rootLoop_getD (M : MimcFn) : ∀ (i : Nat) (a b : List Hash),
    a.length = powOfTwo i →
    (rootLoop M (a ++ b) i).getD 0 [] = rootOf (buildStack M a i) := by
  intro i
  induction i with
  | zero =>
    intro a b ha
    have ha0 : 0 < a.length := by
      rw [ha]
      exact powOfTwo_pos 0
    rw [rootLoop, List.getD_append _ _ _ _ ha0]
    rfl
  | succ i ih =>
    intro a b ha
    have hlen2 : powOfTwo i ≤ (a ++ b).length := by
      have h2 := powOfTwo_succ i
      simp only [List.length_append, ha]
      omega
    rw [rootLoop]
    rw [rootPassAux_spec M (powOfTwo i) (powOfTwo i) 0 (a ++ b) (by omega) (by omega) hlen2]
    have hmap : (List.range' 0 (powOfTwo i - 0)).map
        (fun k => GoComputeHashOfTwoNodes M ((a ++ b).getD (2 * k) [])
          ((a ++ b).getD (2 * k + 1) [])) = parentLevel M a (powOfTwo i) := by
      rw [Nat.sub_zero, ← List.range_eq_range', parentLevel]
      apply List.map_congr_left
      intro k hk
      have hklt : k < powOfTwo i := List.mem_range.mp hk
      have hb : 2 * k + 1 < a.length := by
        have := powOfTwo_succ i
        omega
      rw [List.getD_append _ _ _ _ (by omega), List.getD_append _ _ _ _ hb]
    rw [List.take_zero, List.nil_append, hmap]
    rw [ih (parentLevel M a (powOfTwo i)) _ (parentLevel_length M _ _)]
    rw [buildStack, rootOf_append _ (by rw [buildStack_length]; omega)]

/-- The in-place root computation agrees with the root of the node grid. -/
theorem merkleRoot_eq_gridRoot (M : MimcFn) (hashes : List Hash)
    (h : hashes.length ≤ ACCOUNTS_PER_BATCH) :
    GoComputeMerkleRootFromHashes M hashes =
      .ok (rootOf (buildStack M (padTo hashes (powOfTwo TREE_DEPTH)) TREE_DEPTH)) := by
  have hab : ACCOUNTS_PER_BATCH = powOfTwo TREE_DEPTH := rfl
  rw [GoComputeMerkleRootFromHashes, goComputeMerkleRootFromHashes, if_neg (by omega)]
  congr 1
  rw [← List.append_nil (padTo hashes (powOfTwo TREE_DEPTH))]
  exact rootLoop_getD M TREE_DEPTH _ [] (padTo_length _ _)

/-- C1: for every list of at most 2^10 leaf hashes and every index into it,
building the node grid, extracting the Merkle path at that position, and
verifying it against the computed Merkle root succeeds: `verifyMerklePath`
returns nil. -/
theorem merklePath_roundtrip (M : MimcFn) (L : List Hash)
    (hlen : L.length ≤ ACCOUNTS_PER_BATCH) (i : Nat) (hi : i < L.length) :
    ∃ grid path root,
      goComputeMerkleTreeNodesFromHashes M L TREE_DEPTH = .ok grid ∧
      ComputeMerklePath (i : Int) grid = .ok path ∧
      GoComputeMerkleRootFromHashes M L = .ok root ∧
      verifyMerklePath M (L.getD i []) (i : Int) path root = .ok () := by
  have hab : ACCOUNTS_PER_BATCH = powOfTwo TREE_DEPTH := rfl
  set cur := padTo L (powOfTwo TREE_DEPTH) with hcur
  have hcl : cur.length = powOfTwo TREE_DEPTH := padTo_length _ _
  have hpos : i < powOfTwo TREE_DEPTH := by omega
  obtain ⟨p, hp, hplen, hfold⟩ := pathRoot M TREE_DEPTH cur i hcl hpos
  refine ⟨buildStack M cur TREE_DEPTH, p, rootOf (buildStack M cur TREE_DEPTH),
    ?_, ?_, ?_, ?_⟩
  · rw [goComputeMerkleTreeNodesFromHashes, if_neg (by omega)]
  · rw [ComputeMerklePath]
    have hgl : (buildStack M cur TREE_DEPTH).length - 1 = TREE_DEPTH := by
      rw [buildStack_length]
      omega
    rw [hgl]
    rw [if_neg (by
      push_neg
      constructor
      · positivity
      · have : (i : Int) < (powOfTwo TREE_DEPTH : Int) := by exact_mod_cast hpos
        omega)]
    rw [Int.toNat_natCast]
    exact hp
  · exact merkleRoot_eq_gridRoot M L hlen
  · rw [verifyMerklePath, if_neg (by omega), if_neg (by
      push_neg
      constructor
      · positivity
      · have : (i : Int) < (powOfTwo TREE_DEPTH : Int) := by exact_mod_cast hpos
        omega)]
    rw [Int.toNat_natCast]
    have hpad : cur.getD i [] = L.getD i [] := padTo_getD L hi hpos
    rw [← hpad, hfold]
    simp

/-- Closed instance of the C1 theorem at a single-leaf list and position 0. -/
theorem merklePath_roundtrip_witness :
    ∃ grid path root,
      goComputeMerkleTreeNodesFromHashes mimcStub [[1]] TREE_DEPTH = .ok grid ∧
      ComputeMerklePath ((0 : Nat) : Int) grid = .ok path ∧
      GoComputeMerkleRootFromHashes mimcStub [[1]] = .ok root ∧
      verifyMerklePath mimcStub (([[1]] : List Hash).getD 0 []) ((0 : Nat) : Int)
        path root = .ok () :=
  merklePath_roundtrip mimcStub [[1]] (by decide) 0 (by decide)

/-! ## Base-36 user-id lemmas (C9) -/

theorem digitVal36_lt {c v : Nat} (h : digitVal36 c = some v) : v < 36 := by
  rw [digitVal36] at h
  split_ifs at h <;> simp_all
  all_goals omega

theorem digitCode36_digitVal {c v : Nat} (h : digitVal36 c = some v) :
    digitCode36 v = lowerCode36 c := by
  rw [digitVal36] at h
  rw [digitCode36, lowerCode36]
  split_ifs at h with h1 h2 h3
  · simp only [Option.some.injEq] at h
    subst h
    split_ifs <;> omega
  · simp only [Option.some.injEq] at h
    subst h
    split_ifs <;> omega
  · simp only [Option.some.injEq] at h
    subst h
    split_ifs <;> omega

theorem digitVal36_eq_zero {c : Nat} (h : digitVal36 c = some 0) : c = 48 := by
  rw [digitVal36] at h
  split_ifs at h <;> simp_all
  all_goals omega

theorem digitCode36_ne_48 {v : Nat} (h : 1 ≤ v) : digitCode36 v ≠ 48 := by
  rw [digitCode36]
  split_ifs <;> omega

theorem valOf_foldl_ge (ds : List Nat) (acc : Nat) :
    acc ≤ ds.foldl (fun a c => a * 36 + ((digitVal36 c).getD 0)) acc := by
  induction ds generalizing acc with
  | nil => simp
  | cons d ds ih =>
    calc acc ≤ acc * 36 + ((digitVal36 d).getD 0) := by
          have : acc ≤ acc * 36 := Nat.le_mul_of_pos_right acc (by norm_num)
          omega
    _ ≤ _ := ih _

theorem valOfDigits36_cons_zero (ds : List Nat) :
    valOfDigits36 (48 :: ds) = valOfDigits36 ds := by
  simp [valOfDigits36, digitVal36]

theorem valOfDigits36_concat (ds : List Nat) (c : Nat) :
    valOfDigits36 (ds ++ [c]) = 36 * valOfDigits36 ds + ((digitVal36 c).getD 0) := by
  simp [valOfDigits36, List.foldl_append, Nat.mul_comm]

theorem valOfDigits36_head_pos {c : Nat} (ds : List Nat)
    (h : 1 ≤ (digitVal36 c).getD 0) : 1 ≤ valOfDigits36 (c :: ds) := by
  rw [valOfDigits36]
  simp only [List.foldl_cons]
  calc (1 : Nat) ≤ 0 * 36 + (digitVal36 c).getD 0 := by omega
  _ ≤ _ := valOf_foldl_ge ds _

theorem writeBase36_step (a b : Nat) (ha : 1 ≤ a) (hb : b < 36) :
    writeBase36 (36 * a + b) = writeBase36 a ++ [digitCode36 b] := by
  have h1 : (36 * a + b) / 36 = a := by omega
  have h2 : (36 * a + b) % 36 = b := by omega
  rw [writeBase36]
  rw [dif_neg (by omega), h1, h2]

/-- A numeral whose leading digit is nonzero prints back (lowercased)
exactly as written. -/
theorem writeBase36_valOf_no_leading_zero (c : Nat) (es : List Nat)
    (hval : ∀ x ∈ c :: es, (digitVal36 x).isSome)
    (hc : 1 ≤ (digitVal36 c).getD 0) :
    writeBase36 (valOfDigits36 (c :: es)) = (c :: es).map lowerCode36 := by
  induction es using List.reverseRecOn with
  | nil =>
    obtain ⟨v, hv⟩ := Option.isSome_iff_exists.mp (hval c (by simp))
    have hval1 : valOfDigits36 [c] = v := by
      simp [valOfDigits36, hv]
    rw [hval1, writeBase36, dif_pos (digitVal36_lt hv)]
    simp [digitCode36_digitVal hv]
  | append_singleton es d ih =>
    obtain ⟨vd, hvd⟩ := Option.isSome_iff_exists.mp (hval d (by simp))
    have hcons : c :: (es ++ [d]) = (c :: es) ++ [d] := rfl
    rw [hcons, valOfDigits36_concat]
    have hge : 1 ≤ valOfDigits36 (c :: es) := valOfDigits36_head_pos es hc
    rw [hvd]
    simp only [Option.getD_some]
    rw [writeBase36_step _ vd hge (digitVal36_lt hvd)]
    rw [ih (fun x hx => hval x (by
      rcases List.mem_cons.mp hx with rfl | hx2
      · simp
      · simp [List.mem_append.mpr (Or.inl hx2)]))]
    rw [digitCode36_digitVal hvd]
    simp

/-- Printing the parsed value of a valid digit string yields its canonical
form: lowercased, leading zeros dropped, `"0"` when all digits are zero. -/
theorem writeBase36_valOf (ds : List Nat)
    (hval : ∀ x ∈ ds, (digitVal36 x).isSome) :
    writeBase36 (valOfDigits36 ds) =
      (if ((ds.map lowerCode36).dropWhile fun c => c = 48).isEmpty then [48]
       else (ds.map lowerCode36).dropWhile fun c => c = 48) := by
  induction ds with
  | nil =>
    rw [valOfDigits36]
    simp only [List.foldl_nil, List.map_nil, List.dropWhile_nil, List.isEmpty_nil,
      if_pos]
    rw [writeBase36]
    rfl
  | cons c ds ih =>
    obtain ⟨v, hv⟩ := Option.isSome_iff_exists.mp (hval c (by simp))
    rcases Nat.eq_zero_or_pos v with hv0 | hv1
    · subst hv0
      have hc48 : c = 48 := digitVal36_eq_zero hv
      subst hc48
      rw [valOfDigits36_cons_zero]
      rw [ih (fun x hx => hval x (by simp [hx]))]
      have hlower : lowerCode36 48 = 48 := rfl
      simp [hlower, List.dropWhile_cons]
    · have hlc : lowerCode36 c ≠ 48 := by
        rw [← digitCode36_digitVal hv]
        exact digitCode36_ne_48 hv1
      rw [writeBase36_valOf_no_leading_zero c ds hval (by simp [hv]; omega)]
      simp [List.dropWhile_cons, hlc]

theorem parseDigits36_of_valid (c : Nat) (rest : List Nat)
    (hval : ∀ x ∈ c :: rest, (digitVal36 x).isSome) :
    parseDigits36 (c :: rest) = some (valOfDigits36 (c :: rest)) := by
  rw [parseDigits36]
  rw [if_pos (List.all_eq_true.mpr hval)]

theorem goBigIntSetString36_of_valid (c : Nat) (rest : List Nat)
    (hval : ∀ x ∈ c :: rest, (digitVal36 x).isSome) :
    goBigIntSetString36 (c :: rest) = some ((valOfDigits36 (c :: rest) : Nat) : Int) := by
  have hc := hval c (by simp)
  have hc43 : c ≠ 43 := by
    intro h
    subst h
    simp [digitVal36] at hc
  have hc45 : c ≠ 45 := by
    intro h
    subst h
    simp [digitVal36] at hc
  rw [goBigIntSetString36]
  rw [if_neg hc43, if_neg hc45, parseDigits36_of_valid c rest hval]
  rfl

/-- C9: for every raw account whose (hyphen-stripped) `UserId` is a base-36
numeral string, converting to a `GoAccount` and back yields the raw account
with its `UserId` canonically normalized — hyphens removed, letter digits
lowercased, leading zeros dropped (`"0"` when everything is zero) — and the
`Balance` vector unchanged. -/
theorem rawAccount_roundtrip (r : RawGoAccount)
    (h1 : stripHyphens r.UserId ≠ [])
    (h2 : ∀ c ∈ stripHyphens r.UserId, (digitVal36 c).isSome) :
    ∃ g, ConvertRawGoAccountToGoAccount r = .ok g ∧
      ConvertGoAccountToRawGoAccount g =
        { UserId := canonicalUserId r.UserId, Balance := r.Balance } := by
  rcases ht : stripHyphens r.UserId with _ | ⟨c, rest⟩
  · exact absurd ht h1
  · have hval : ∀ x ∈ c :: rest, (digitVal36 x).isSome := by
      rw [← ht]
      exact h2
    have hparse := goBigIntSetString36_of_valid c rest hval
    have hconv : convertRawUserIdToBytes r.UserId =
        .ok (natToBytes (valOfDigits36 (c :: rest))) := by
      rw [convertRawUserIdToBytes, ht, hparse]
      simp
    refine ⟨{ UserId := natToBytes (valOfDigits36 (c :: rest)), Balance := r.Balance }, ?_, ?_⟩
    · rw [ConvertRawGoAccountToGoAccount, hconv]
      rfl
    · rw [ConvertGoAccountToRawGoAccount]
      simp only [bytesToNat_natToBytes]
      rw [writeBase36_valOf (c :: rest) hval]
      rw [canonicalUserId, ht]

/-- Closed instance of the C9 theorem at the raw user id "A-0b" (codes
65, 45, 48, 98). -/
theorem rawAccount_roundtrip_witness :
    ∃ g, ConvertRawGoAccountToGoAccount { UserId := [65, 45, 48, 98], Balance := [1, 2] } = .ok g ∧
      ConvertGoAccountToRawGoAccount g =
        { UserId := canonicalUserId [65, 45, 48, 98], Balance := [1, 2] } :=
  rawAccount_roundtrip { UserId := [65, 45, 48, 98], Balance := [1, 2] }
    (by decide) (by decide)

end PoS
